import Mathlib

set_option maxRecDepth 10000

/-!
Verification of the Field Value Resolution Engine of the IEEMLECTOR
repository.  The definitions below are a shallow embedding of
`FLUJO4_VALIDACION/convertidor_texto_numeros.py` (normalizer, lexicon,
exact and fuzzy conversion, field arbitration) and of the batch
resolution pipeline in `FLUJO3_EXTRACCION/exportador.py`
(`_guardar_con_validacion` and `_separar_letra_y_digito`).

Modelling conventions:
  * Python strings are Lean `String`s; the character-level work is done
    on `List Char` (`String.data`).
  * Python floats are modelled with `ℚ`.  Every float literal appearing
    in the source (0.65, 1.50, 0.35, 0.60, 0.50, 0.10, 0.75, 0.95, 0.85,
    0.7) is written as the corresponding rational.  For the quantities
    the code actually computes (ratios of small word lengths, sums of
    these literals) the rational comparisons agree with the IEEE-double
    comparisons the interpreter performs: the compared values are either
    exactly representable or separated from the thresholds by far more
    than the rounding error (word lengths are at most 13), including
    `int(len * 0.35)`, which equals `len * 35 / 100` in `Nat` division
    for every reachable length.
  * `unicodedata.normalize('NFD', ·)` and `str.lower()` are modelled for
    the Spanish-relevant alphabet (a-z, A-Z and the accented letters
    that the rest of the code can ever keep); characters outside the
    model's tables pass through unchanged and are then discarded by the
    `[^a-z\s]` filter, exactly as any non-latin character is in the
    source.
  * The human-readable `detalle` / `razonamiento` strings built by the
    code are presentation only (no branch ever inspects them), so the
    embedded records omit them.
-/

namespace Lector

/-! ## Normalizer (`ConvertidorTextoNumeros.normalizar`) -/

/-- Python `\s` / `str.strip` whitespace, restricted to the ASCII range. -/
def esEspacio (c : Char) : Bool :=
  c = ' ' || c = '\t' || c = '\n' || c = '\r' || c = '\x0b' || c = '\x0c'

/-- `str.lower()` restricted to ASCII letters and the Spanish accented
letters used by the engine. -/
def pyLower (c : Char) : Char :=
  if 'A' ≤ c ∧ c ≤ 'Z' then Char.ofNat (c.toNat + 32)
  else if c = 'Á' then 'á'
  else if c = 'É' then 'é'
  else if c = 'Í' then 'í'
  else if c = 'Ó' then 'ó'
  else if c = 'Ú' then 'ú'
  else if c = 'Ü' then 'ü'
  else if c = 'Ñ' then 'ñ'
  else c

/-- Canonical decomposition (NFD) of the Spanish accented letters:
base letter followed by a combining mark. -/
def nfdChar (c : Char) : List Char :=
  if c = 'á' then ['a', '́']
  else if c = 'é' then ['e', '́']
  else if c = 'í' then ['i', '́']
  else if c = 'ó' then ['o', '́']
  else if c = 'ú' then ['u', '́']
  else if c = 'ü' then ['u', '̈']
  else if c = 'ñ' then ['n', '̃']
  else [c]

/-- Combining marks (Unicode category `Mn`) produced by `nfdChar`. -/
def esMarca (c : Char) : Bool :=
  c = '́' || c = '̈' || c = '̃'

/-- `str.strip()`: drop leading and trailing whitespace. -/
def recortar (l : List Char) : List Char :=
  ((l.dropWhile esEspacio).reverse.dropWhile esEspacio).reverse

/-- Split on maximal whitespace runs, keeping (possibly empty) chunks;
the accumulator holds the current chunk reversed. -/
def partirAux : List Char → List Char → List (List Char)
  | [], acc => [acc.reverse]
  | c :: cs, acc =>
    if esEspacio c then acc.reverse :: partirAux cs []
    else partirAux cs (c :: acc)

/-- Python `str.split()` (no argument): whitespace split, empty chunks
dropped. -/
def palabrasDe (l : List Char) : List (List Char) :=
  (partirAux l []).filter (fun w => ¬ w.isEmpty)

/-- Join words with single spaces; models
`re.sub(r'\s+', ' ', ·).strip()` applied after the character filter. -/
def unirPalabras : List (List Char) → List Char
  | [] => []
  | [w] => w
  | w :: ws => w ++ ' ' :: unirPalabras ws

/-- Is `c` a lowercase latin letter? -/
def esAZ (c : Char) : Bool := 'a' ≤ c && c ≤ 'z'

/-- `ConvertidorTextoNumeros.normalizar` on character lists:
lowercase + strip, NFD decomposition, drop combining marks, keep only
`[a-z\s]`, collapse whitespace runs and trim. -/
def normalizarL (l : List Char) : List Char :=
  let l1 := recortar (l.map pyLower)
  let l2 := (l1.flatMap nfdChar).filter (fun c => ¬ esMarca c)
  let l3 := l2.filter (fun c => esAZ c || esEspacio c)
  unirPalabras (palabrasDe l3)

/-- `ConvertidorTextoNumeros.normalizar`. -/
def normalizar (s : String) : String := ⟨normalizarL s.data⟩

/-! ## Lexicon (`ConvertidorTextoNumeros.PALABRAS`) -/

/-- The reference dictionary of Spanish number words, in the source's
insertion order (Python dicts preserve it, and the fuzzy tie-break
depends on it). -/
def PALABRAS : List (String × Nat) :=
  [("cero", 0), ("uno", 1), ("una", 1), ("dos", 2), ("tres", 3),
   ("cuatro", 4), ("cinco", 5), ("seis", 6), ("siete", 7), ("ocho", 8),
   ("nueve", 9),
   ("diez", 10), ("once", 11), ("doce", 12), ("trece", 13),
   ("catorce", 14), ("quince", 15), ("dieciseis", 16),
   ("diecisiete", 17), ("dieciocho", 18), ("diecinueve", 19),
   ("veinte", 20), ("veintiuno", 21), ("veintiuna", 21),
   ("veintidos", 22), ("veintitres", 23), ("veinticuatro", 24),
   ("veinticinco", 25), ("veintiseis", 26), ("veintisiete", 27),
   ("veintiocho", 28), ("veintinueve", 29),
   ("treinta", 30), ("cuarenta", 40), ("cincuenta", 50),
   ("sesenta", 60), ("setenta", 70), ("ochenta", 80), ("noventa", 90),
   ("cien", 100), ("ciento", 100), ("doscientos", 200),
   ("doscientas", 200), ("trescientos", 300), ("trescientas", 300),
   ("cuatrocientos", 400), ("cuatrocientas", 400), ("quinientos", 500),
   ("quinientas", 500), ("seiscientos", 600), ("seiscientas", 600),
   ("setecientos", 700), ("setecientas", 700), ("ochocientos", 800),
   ("ochocientas", 800), ("novecientos", 900), ("novecientas", 900)]

/-- Dictionary lookup (`palabra in PALABRAS` / `PALABRAS[palabra]`). -/
def buscaEn : List (String × Nat) → List Char → Option Nat
  | [], _ => none
  | (w, v) :: resto, p => if p = w.data then some v else buscaEn resto p

/-- Lookup of a token in the lexicon. -/
def busca (p : List Char) : Option Nat := buscaEn PALABRAS p

/-- Fingerprint of a word: `(len(palabra), palabra[0], palabra[-1])`.
The words it is ever applied to are nonempty, so the defaults are
inert. -/
def huellaDe (p : List Char) : Nat × Char × Char :=
  (p.length, p.headD ' ', p.getLastD ' ')

/-- `self.huellas[huella]`: the lexicon entries sharing a fingerprint,
in insertion order (the constructor groups `PALABRAS` by fingerprint). -/
def huellaCandidatos (h : Nat × Char × Char) : List (String × Nat) :=
  PALABRAS.filter (fun wv => huellaDe wv.1.data = h)

/-! ## Levenshtein distance (`ConvertidorTextoNumeros.levenshtein`)

The source implements the classic two-row dynamic program.  `filaSig`
is the inner loop (building the tail of `curr_row` from `prev_row` and
the cell to the left), `filaLoop` the outer loop over `s1`; the first
cell of row `i + 1` is `i + 1 = prev_row[0] + 1`. -/

/-- Inner DP loop: one row step of the Levenshtein table. -/
def filaSig (c1 : Char) : List Char → List Nat → Nat → List Nat
  | [], _, _ => []
  | _ :: _, [], _ => []
  | c2 :: t, pj :: resto, izq =>
    let celda := min (resto.headD 0 + 1)
      (min (izq + 1) (pj + (if c1 = c2 then 0 else 1)))
    celda :: filaSig c1 t resto celda

/-- Outer DP loop over the characters of `s1`. -/
def filaLoop : List Char → List Char → List Nat → List Nat
  | [], _, prev => prev
  | c1 :: r, s2, prev =>
    let primero := prev.headD 0 + 1
    filaLoop r s2 (primero :: filaSig c1 s2 prev primero)

/-- The DP body: final row's last entry, starting from `range(len(s2)+1)`. -/
def levNucleo (s1 s2 : List Char) : Nat :=
  (filaLoop s1 s2 (List.range (s2.length + 1))).getLastD 0

/-- `ConvertidorTextoNumeros.levenshtein`: swap so the first argument is
the longer one, answer `len(s1)` when `s2` is empty, else run the DP. -/
def levenshtein (s1 s2 : List Char) : Nat :=
  if s1.length < s2.length then levNucleo s2 s1
  else if s2.length = 0 then s1.length
  else levNucleo s1 s2

/-! ## Exact resolver (`convertir`, `_parsear_compuesto`) -/

/-- `texto.replace(' y ', ' ')`: one left-to-right pass removing the
connective, continuing after each replacement. -/
def quitarY : List Char → List Char
  | ' ' :: 'y' :: ' ' :: resto => ' ' :: quitarY resto
  | c :: resto => c :: quitarY resto
  | [] => []

/-- The summation loop of `_parsear_compuesto`: every word must be an
exact lexicon hit, values are added, `enc` is the `encontro_algo`
flag. -/
def sumarPalabras : List (List Char) → Nat → Bool → Option Nat
  | [], total, enc => if enc then some total else none
  | p :: ps, total, _ =>
    match busca p with
    | some v => sumarPalabras ps (total + v) true
    | none => none

/-- `ConvertidorTextoNumeros._parsear_compuesto` (the input is already
normalized; `split()` never yields empty words, so the `continue`
branch of the loop is dead). -/
def parsearCompuesto (textoNormalizado : List Char) : Option Nat :=
  let palabras := palabrasDe (quitarY textoNormalizado)
  if palabras = [] then none
  else sumarPalabras palabras 0 false

/-- `ConvertidorTextoNumeros.convertir` on character lists. -/
def convertirL (l : List Char) : Option Nat :=
  let normalizado := normalizarL l
  if normalizado = [] then none
  else
    match busca normalizado with
    | some v => some v
    | none => parsearCompuesto normalizado

/-- `ConvertidorTextoNumeros.convertir` (exact conversion). -/
def convertir (texto : String) : Option Nat := convertirL texto.data

/-- The compound rule as the spec words it (for comparison with
`convertir`): "remove the connective token y, split on spaces, require
every token to be an exact Lexicon word, return their sum".  Removing
the *token* `y` — rather than the infix `' y '` — is the reading under
which the claimed description is tested. -/
def convertExactSpec (texto : String) : Option Nat :=
  let n := normalizarL texto.data
  if n = [] then none
  else
    match busca n with
    | some v => some v
    | none =>
      let tokens := (palabrasDe n).filter (fun t => t ≠ ['y'])
      if tokens = [] then none
      else if tokens.all (fun t => (busca t).isSome) then
        some ((tokens.map (fun t => (busca t).getD 0)).sum)
      else none

/-! ## Fuzzy resolver (`_fuzzy_palabra`, `convertir_fuzzy`)

The confidence arithmetic is written with `mkRat`-based helpers (rather
than Mathlib's field operations, which are sealed against kernel
reduction) so that every function in the file evaluates by `decide`;
the lemmas `qAdd_eq`, `qSub_eq`, `qMin_eq`, `qMax_eq` below identify
them with the standard `ℚ` operations. -/

/-- Exact rational addition (agrees with `+` on `ℚ`, see `qAdd_eq`). -/
def qAdd (x y : ℚ) : ℚ := mkRat (x.num * y.den + y.num * x.den) (x.den * y.den)

/-- Exact rational subtraction (agrees with `-` on `ℚ`, see `qSub_eq`). -/
def qSub (x y : ℚ) : ℚ := mkRat (x.num * y.den - y.num * x.den) (x.den * y.den)

/-- Python `min` on rationals (agrees with `min`, see `qMin_eq`). -/
def qMin (x y : ℚ) : ℚ := if x ≤ y then x else y

/-- Python `max` on rationals (agrees with `max`, see `qMax_eq`). -/
def qMax (x y : ℚ) : ℚ := if x ≤ y then y else x

/-- The candidate set of `_fuzzy_palabra`: lexicon entries whose length
ratio to the token lies in `[0.65, 1.50]`, paired with their Levenshtein
distance to the token. -/
def candidatosDe (p : List Char) : List (String × Nat × Nat) :=
  PALABRAS.filterMap (fun wv =>
    let proporcion : ℚ := mkRat p.length (max wv.1.length 1)
    if proporcion < mkRat 13 20 ∨ mkRat 3 2 < proporcion then none
    else some (wv.1, wv.2, levenshtein p wv.1.data))

/-- `candidatos.sort(key=dist)` followed by taking the head: Python's
sort is stable, so the result is the first candidate attaining the
minimum distance. -/
def elegirMejor : List (String × Nat × Nat) → Option (String × Nat × Nat)
  | [] => none
  | c :: cs =>
    match elegirMejor cs with
    | none => some c
    | some b => if b.2.2 < c.2.2 then some b else some c

/-- `ConvertidorTextoNumeros._fuzzy_palabra`: best Levenshtein match
with a 35% acceptance threshold, fingerprint fallback otherwise. -/
def fuzzyPalabra (p : List Char) : Option Nat × ℚ :=
  if p = [] then (none, 0)
  else
    match elegirMejor (candidatosDe p) with
    | none => (none, 0)
    | some (w, v, d) =>
      let umbral := max 2 (w.length * 35 / 100)
      if umbral < d then
        if 2 ≤ p.length then
          match huellaCandidatos (huellaDe p) with
          | [u] => (some u.2, mkRat 13 20)
          | _ => (none, 0)
        else (none, 0)
      else
        let conf : ℚ := qMax (mkRat 1 2) (qSub 1 (mkRat d (max w.length 1)))
        if p.length = w.length ∧ p.headD ' ' = w.data.headD ' ' ∧
            p.getLastD ' ' = w.data.getLastD ' ' then
          (some v, qMin 1 (qAdd conf (mkRat 1 10)))
        else (some v, conf)

/-- The multi-word loop of `convertir_fuzzy`: exact lookup first, fuzzy
second, minimum confidence across fuzzy hits, total failure on any
unresolved word. -/
def fuzzyAcum : List (List Char) → Nat → ℚ → Bool → Option (Nat × ℚ)
  | [], total, conf, enc => if enc then some (total, conf) else none
  | p :: ps, total, conf, _ =>
    match busca p with
    | some v => fuzzyAcum ps (total + v) conf true
    | none =>
      match fuzzyPalabra p with
      | (some v, c) => fuzzyAcum ps (total + v) (qMin conf c) true
      | (none, _) => none

/-- `ConvertidorTextoNumeros.convertir_fuzzy` on character lists. -/
def convertirFuzzyL (l : List Char) : Option Nat × ℚ :=
  let normalizado := normalizarL l
  if normalizado = [] then (none, 0)
  else
    match convertirL l with
    | some v => (some v, 1)
    | none =>
      let palabras := palabrasDe (quitarY normalizado)
      match palabras with
      | [] => (none, 0)
      | [p] => fuzzyPalabra p
      | _ =>
        match fuzzyAcum palabras 0 1 false with
        | some tc => (some tc.1, tc.2)
        | none => (none, 0)

/-- `ConvertidorTextoNumeros.convertir_fuzzy`. -/
def convertirFuzzy (texto : String) : Option Nat × ℚ :=
  convertirFuzzyL texto.data

/-! ## Field arbitration (`validar_campo`, `_extraer_digito`) -/

/-- The shape of `validar_campo`'s result dictionary (the `detalle`
string is presentation only and omitted). -/
structure Resultado where
  valor : Option Nat
  confianza : ℚ
  metodo : String
  deriving DecidableEq, Repr

/-- `ConvertidorTextoNumeros._extraer_digito`: strip every non-digit
character; an empty remainder means no digit evidence. -/
def extraerDigito (textoDigito : String) : Option Nat :=
  let ds := textoDigito.data.filter Char.isDigit
  if ds = [] then none
  else some (ds.foldl (fun n c => 10 * n + (c.toNat - 48)) 0)

/-- `ConvertidorTextoNumeros.validar_campo`: exact conversion first
(text always outranks the digit), fuzzy conversion at the 0.60 gate
second, fallback to the digit (confidence 0, method `necesita_ia`)
third. -/
def validar_campo (textoLetra textoDigito : String) : Resultado :=
  let digito := extraerDigito textoDigito
  let tres : Resultado := ⟨digito, 0, "necesita_ia"⟩
  match convertir textoLetra with
  | some t =>
    if digito = some t then ⟨some t, 1, "texto_exacto_coincide"⟩
    else ⟨some t, 1, "texto_exacto_prioridad"⟩
  | none =>
    match convertirFuzzy textoLetra with
    | (some f, c) =>
      if mkRat 3 5 ≤ c then
        if digito = some f then
          ⟨some f, qMin c (mkRat 19 20), "fuzzy_coincide"⟩
        else ⟨some f, qMin c (mkRat 17 20), "fuzzy_prioridad"⟩
      else tres
    | (none, _) => tres

/-! ## Batch resolution pipeline
(`exportador.ToonExporter._guardar_con_validacion` and
`exportador._separar_letra_y_digito`)

The pipeline below models the pure decision logic of
`_guardar_con_validacion` with the `ConvertidorTextoNumeros` available:
the raw per-table pairs are its input (the Azure extraction that
produces them is a collaborator), the Azure OpenAI validator is an
oracle function, and the file/console output is dropped.  The input
list corresponds to `pares_por_tabla` read in iteration order
`1, 2, ..., num_tablas` (the code iterates `sorted(...)` and then
`range(num_tablas)`); tables that produced no pairs carry `[]`. -/

/-- `RawFieldCandidate`: one entry of the `extraer_pares_tabla_*`
output (`{"id": ..., "contenidos": [...]}`). -/
structure Par where
  id : String
  contenidos : List String
  deriving DecidableEq, Repr

/-- A resolved field as the pipeline stores it: the local records built
in step 1.5 and the dictionaries returned by the validator share this
shape (the free-text `razonamiento` is presentation only and
omitted). -/
structure Registro where
  id : String
  tabla : Nat
  valor : Option Nat
  confianza : String
  deriving DecidableEq, Repr

/-- The validator's reply as `_guardar_con_validacion` consumes it:
`exito` plus the optional `resultados_por_tabla` map (a malformed reply
may lack the key, hence the `Option`). -/
structure RespuestaIA where
  exito : Bool
  resultadosPorTabla : Option (List (Nat × List Registro))
  deriving Repr

/-- Letters recognised by `_separar_letra_y_digito`'s
`[a-záéíóúüñA-ZÁÉÍÓÚÜÑ]` character class. -/
def esLetraEsp (c : Char) : Bool :=
  ('a' ≤ c && c ≤ 'z') || ('A' ≤ c && c ≤ 'Z') ||
  c = 'á' || c = 'é' || c = 'í' || c = 'ó' || c = 'ú' || c = 'ü' ||
  c = 'ñ' || c = 'Á' || c = 'É' || c = 'Í' || c = 'Ó' || c = 'Ú' ||
  c = 'Ü' || c = 'Ñ'

/-- `str.strip()` on strings. -/
def stripStr (s : String) : String := ⟨recortar s.data⟩

/-- One iteration of `_separar_letra_y_digito`'s loop over the raw
contents; the state is `(texto_letra, texto_digito)`.  The source is an
`if`/`elif`: a chunk that is mostly digits (`len(solo_nums) ≥
len(c) * 0.7`, an exact integer comparison) becomes the digit text if
none was chosen yet; in every other case — including a digit-pure chunk
arriving after the digit slot is filled — a chunk with at least three
letters becomes the letter text when it is longer than the current
one. -/
def sepPaso (st : Option String × Option String) (contenido : String) :
    Option String × Option String :=
  let c := stripStr contenido
  if c.data = [] then st
  else
    let nums := c.data.filter Char.isDigit
    let letras := c.data.filter esLetraEsp
    let esDigitoPuro := nums ≠ [] ∧ 10 * nums.length ≥ 7 * c.length
    match st with
    | (letra, digito) =>
      if esDigitoPuro ∧ digito = none then (letra, some c)
      else if 3 ≤ letras.length then
        match letra with
        | none => (some c, digito)
        | some l => if l.length < c.length then (some c, digito)
          else (letra, digito)
      else (letra, digito)

/-- `exportador._separar_letra_y_digito`. -/
def separarLetraDigito (contenidos : List String) :
    Option String × Option String :=
  contenidos.foldl sepPaso (none, none)

/-- The local pre-validation of one pair (step 1.5 of
`_guardar_con_validacion`): run `validar_campo` on the classified
evidence and accept the result when the method needs no external help,
the confidence reaches `_CONFIANZA_MINIMA = 0.75` and the value is
non-null; the stored label is `alta` at confidence ≥ 0.95, else
`media`. -/
def resolverLocalPar (numTabla : Nat) (par : Par) : Option Registro :=
  match separarLetraDigito par.contenidos with
  | (some textoLetra, textoDigito) =>
    let res := validar_campo textoLetra (textoDigito.getD "")
    if res.metodo ≠ "necesita_ia" ∧ res.metodo ≠ "sin_resultado" ∧
        mkRat 3 4 ≤ res.confianza ∧ res.valor ≠ none then
      some ⟨par.id, numTabla, res.valor,
        if mkRat 19 20 ≤ res.confianza then "alta" else "media"⟩
    else none
  | (none, _) => none

/-- Insert into a Python dict modelled as an association list: first
assignment fixes the position, later assignments overwrite the value. -/
def dictInsertar (d : List (String × Registro)) (k : String)
    (r : Registro) : List (String × Registro) :=
  if d.any (fun kv => kv.1 = k) then
    d.map (fun kv => if kv.1 = k then (k, r) else kv)
  else d ++ [(k, r)]

/-- Dict lookup (keys are unique by construction). -/
def buscarReg (d : List (String × Registro)) (k : String) :
    Option Registro :=
  (d.find? (fun kv => kv.1 == k)).map (fun kv => kv.2)

/-- `resultados_locales_por_tabla[num_tabla]`: the dict of locally
accepted results of one table, keyed by field id. -/
def localesDe (numTabla : Nat) (pares : List Par) :
    List (String × Registro) :=
  pares.foldl (fun d par =>
    match resolverLocalPar numTabla par with
    | some r => dictInsertar d par.id r
    | none => d) []

/-- `pares_para_ia_por_tabla[num_tabla]`: the pairs not resolved
locally. -/
def paraIA (numTabla : Nat) (pares : List Par) : List Par :=
  pares.filter (fun par => (resolverLocalPar numTabla par).isNone)

/-- The escalation batch: per-table unresolved pairs, tables with an
empty list removed (the code `del`s them). -/
def batchEscalacion (tablas : List (Nat × List Par)) :
    List (Nat × List Par) :=
  (tablas.map (fun tp => (tp.1, paraIA tp.1 tp.2))).filter
    (fun tp => ¬ tp.2.isEmpty)

/-- `resultados_ia_por_tabla.get(num_tabla, [])`. -/
def iaDeTabla (m : List (Nat × List Registro)) (t : Nat) :
    List Registro :=
  ((m.find? (fun kv => kv.1 == t)).map (fun kv => kv.2)).getD []

/-- The step-3 merge of one table: original candidate order first
(local result preferred, validator result as fallback, null values
skipped), then the validator's extra ids appended. -/
def fusionarTabla (localesD iaD : List (String × Registro))
    (idsOrden : List String) : List Registro :=
  (idsOrden.filterMap (fun id =>
    match (buscarReg localesD id).orElse (fun _ => buscarReg iaD id) with
    | some r => if r.valor.isSome then some r else none
    | none => none)) ++
  (iaD.filterMap (fun kr =>
    if idsOrden.contains kr.1 then none
    else if kr.2.valor.isSome then some kr.2 else none))

/-- Step 3 across all tables (`todos_los_resultados`): the validator
records are keyed by their stripped id, as in
`ia_por_id = {str(r.get("id", "")).strip(): r}`. -/
def fusionarTodo (tablas : List (Nat × List Par))
    (iaMapa : List (Nat × List Registro)) : List (Nat × List Registro) :=
  tablas.map (fun tp =>
    let localesD := localesDe tp.1 tp.2
    let iaD := (iaDeTabla iaMapa tp.1).foldl
      (fun d r => dictInsertar d (stripStr r.id) r) []
    (tp.1, fusionarTabla localesD iaD (tp.2.map (fun par => par.id))))

/-- The pipeline's outcome: `resultados = none` models the early
returns that produce no result set (`exito = False`), and `llamadas`
is the trace of validator invocations (each element one call, carrying
the batch it was given). -/
structure Salida where
  resultados : Option (List (Nat × List Registro))
  llamadas : List (List (Nat × List Par))
  deriving DecidableEq, Repr

/-- `_guardar_con_validacion`, validator available, as a function of
the extracted per-table pairs and the validator oracle:
  * no pairs at all → error return, no results, no call;
  * empty escalation batch → merge with an empty validator map, no call;
  * otherwise one validator call; if it reports failure and nothing was
    resolved locally the document fails, else the merge proceeds with
    whatever `resultados_por_tabla` the reply carried (default: empty
    per-table lists). -/
def resolverDocumento (tablas : List (Nat × List Par))
    (validador : List (Nat × List Par) → RespuestaIA) : Salida :=
  if tablas.all (fun tp => tp.2.isEmpty) then ⟨none, []⟩
  else
    let batch := batchEscalacion tablas
    if batch.isEmpty then ⟨some (fusionarTodo tablas []), []⟩
    else
      let respuesta := validador batch
      let predeterminado := tablas.map (fun tp => (tp.1, ([] : List Registro)))
      if respuesta.exito = false ∧
          tablas.all (fun tp => (localesDe tp.1 tp.2).isEmpty) then
        ⟨none, [batch]⟩
      else
        ⟨some (fusionarTodo tablas
          (respuesta.resultadosPorTabla.getD predeterminado)), [batch]⟩

/-! ## Bridge lemmas: the `mkRat` helpers agree with the standard `ℚ`
operations -/

theorem qMin_eq (x y : ℚ) : qMin x y = min x y := by
  unfold qMin
  by_cases h : x ≤ y
  · rw [if_pos h, min_eq_left h]
  · rw [if_neg h, min_eq_right (le_of_not_le h)]

theorem qMax_eq (x y : ℚ) : qMax x y = max x y := by
  unfold qMax
  by_cases h : x ≤ y
  · rw [if_pos h, max_eq_right h]
  · rw [if_neg h, max_eq_left (le_of_not_le h)]

theorem qAdd_eq (x y : ℚ) : qAdd x y = x + y := by
  have hx : (x.den : ℚ) ≠ 0 := by exact_mod_cast x.den_nz
  have hy : (y.den : ℚ) ≠ 0 := by exact_mod_cast y.den_nz
  rw [qAdd, Rat.mkRat_eq_div]
  push_cast
  rw [eq_comm]
  conv_lhs => rw [← Rat.num_div_den x, ← Rat.num_div_den y]
  rw [div_add_div _ _ hx hy]
  ring_nf

theorem qSub_eq (x y : ℚ) : qSub x y = x - y := by
  have hx : (x.den : ℚ) ≠ 0 := by exact_mod_cast x.den_nz
  have hy : (y.den : ℚ) ≠ 0 := by exact_mod_cast y.den_nz
  rw [qSub, Rat.mkRat_eq_div]
  push_cast
  rw [eq_comm]
  conv_lhs => rw [← Rat.num_div_den x, ← Rat.num_div_den y]
  rw [div_sub_div _ _ hx hy]
  ring_nf

theorem mkRat_nat_eq (a b : Nat) : mkRat a b = (a : ℚ) / (b : ℚ) := by
  rw [Rat.mkRat_eq_div]
  push_cast
  rfl

/-! ## Facts about the lexicon and its lookup -/

/-- Every lexicon word has at least 3 characters, contains no
whitespace, and consists of lowercase latin letters only. -/
theorem palabras_forma :
    ∀ kv ∈ PALABRAS, 3 ≤ kv.1.length ∧
      ∀ c ∈ kv.1.data, esAZ c = true ∧ esEspacio c = false := by
  decide

theorem buscaEn_mem {l : List (String × Nat)} {p : List Char} {v : Nat}
    (h : buscaEn l p = some v) : ∃ w, (w, v) ∈ l ∧ p = w.data := by
  induction l with
  | nil => simp [buscaEn] at h
  | cons kv resto ih =>
    obtain ⟨w, n⟩ := kv
    rw [buscaEn] at h
    by_cases hp : p = w.data
    · rw [if_pos hp] at h
      exact ⟨w, by simp [Option.some_inj.mp h], hp⟩
    · rw [if_neg hp] at h
      obtain ⟨w2, hw2, hp2⟩ := ih h
      exact ⟨w2, List.mem_cons_of_mem _ hw2, hp2⟩

/-- A successful lexicon lookup means the token is one of the listed
words. -/
theorem busca_mem {p : List Char} {v : Nat} (h : busca p = some v) :
    ∃ w, (w, v) ∈ PALABRAS ∧ p = w.data :=
  buscaEn_mem h

/-- `elegirMejor` really returns a member of the list attaining the
minimum distance (the third component); stability — the first such
member — is how the source's stable sort breaks ties. -/
theorem elegirMejor_min {l : List (String × Nat × Nat)}
    {m : String × Nat × Nat} (h : elegirMejor l = some m) :
    m ∈ l ∧ ∀ x ∈ l, m.2.2 ≤ x.2.2 := by
  induction l generalizing m with
  | nil => simp [elegirMejor] at h
  | cons c cs ih =>
    rw [elegirMejor] at h
    cases hcs : elegirMejor cs with
    | none =>
      rw [hcs] at h
      cases cs with
      | nil =>
        refine ⟨by simp [Option.some_inj.mp h.symm], ?_⟩
        intro x hx
        rw [List.mem_singleton] at hx
        simp [hx, Option.some_inj.mp h.symm]
      | cons d ds => rw [elegirMejor] at hcs; cases hds : elegirMejor ds <;>
          rw [hds] at hcs <;> simp at hcs; split at hcs <;> simp at hcs
    | some b =>
      rw [hcs] at h
      have h2 : (if b.2.2 < c.2.2 then some b else some c) = some m := h
      obtain ⟨hbmem, hbmin⟩ := ih hcs
      by_cases hlt : b.2.2 < c.2.2
      · rw [if_pos hlt] at h2
        have hmb : m = b := Option.some_inj.mp h2.symm
        subst hmb
        refine ⟨List.mem_cons_of_mem _ hbmem, ?_⟩
        intro x hx
        rcases List.mem_cons.mp hx with hx | hx
        · exact hx ▸ le_of_lt hlt
        · exact hbmin x hx
      · rw [if_neg hlt] at h2
        have hmc : m = c := Option.some_inj.mp h2.symm
        subst hmc
        refine ⟨List.mem_cons_self _ _, ?_⟩
        intro x hx
        rcases List.mem_cons.mp hx with hx | hx
        · exact hx ▸ le_refl _
        · exact le_trans (le_of_not_lt hlt) (hbmin x hx)

/-! ## Shape of the normalizer output -/

/-- Characters of the chunks produced by `partirAux` are non-whitespace
characters satisfying any predicate that holds for the non-whitespace
part of the input (and of the accumulator). -/
theorem partirAux_pred (p : Char → Bool) :
    ∀ (l acc : List Char),
      (∀ c ∈ l, esEspacio c = false → p c = true) →
      (∀ c ∈ acc, p c = true ∧ esEspacio c = false) →
      ∀ w ∈ partirAux l acc, ∀ c ∈ w, p c = true ∧ esEspacio c = false := by
  intro l
  induction l with
  | nil =>
    intro acc _ hacc w hw c hc
    rw [partirAux, List.mem_singleton] at hw
    exact hacc c (by rw [← List.mem_reverse, ← hw]; exact hc)
  | cons a as ih =>
    intro acc hl hacc w hw c hc
    rw [partirAux] at hw
    by_cases ha : esEspacio a = true
    · rw [if_pos ha] at hw
      rcases List.mem_cons.mp hw with hw | hw
      · exact hacc c (by rw [← List.mem_reverse, ← hw]; exact hc)
      · exact ih [] (fun d hd hds => hl d (List.mem_cons_of_mem _ hd) hds)
          (by simp) w hw c hc
    · rw [if_neg ha] at hw
      refine ih (a :: acc) (fun d hd hds => hl d (List.mem_cons_of_mem _ hd) hds)
        ?_ w hw c hc
      intro d hd
      rcases List.mem_cons.mp hd with hd | hd
      · subst hd
        exact ⟨hl d (List.mem_cons_self _ _) (Bool.not_eq_true _ ▸ ha),
          Bool.not_eq_true _ ▸ ha⟩
      · exact hacc d hd

/-- Words of `palabrasDe` are nonempty and consist of non-whitespace
characters satisfying the input's character predicate. -/
theorem palabrasDe_pred (p : Char → Bool) (l : List Char)
    (hl : ∀ c ∈ l, esEspacio c = false → p c = true) :
    ∀ w ∈ palabrasDe l, w ≠ [] ∧
      ∀ c ∈ w, p c = true ∧ esEspacio c = false := by
  intro w hw
  rw [palabrasDe, List.mem_filter] at hw
  refine ⟨by simpa using hw.2, ?_⟩
  exact partirAux_pred p l [] hl (by simp) w hw.1

/-- If the input has no whitespace at all, `partirAux` yields a single
chunk: the accumulator followed by the input. -/
theorem partirAux_sin_espacios : ∀ (l acc : List Char),
    (∀ c ∈ l, esEspacio c = false) →
    partirAux l acc = [acc.reverse ++ l] := by
  intro l
  induction l with
  | nil => intro acc _; simp [partirAux]
  | cons a as ih =>
    intro acc hl
    rw [partirAux, if_neg (by simp [hl a (List.mem_cons_self _ _)])]
    rw [ih (a :: acc) (fun c hc => hl c (List.mem_cons_of_mem _ hc))]
    simp

/-- A whitespace-free list splits into at most one word. -/
theorem palabrasDe_sin_espacios (l : List Char)
    (hl : ∀ c ∈ l, esEspacio c = false) :
    palabrasDe l = [] ∨ palabrasDe l = [l] := by
  rw [palabrasDe, partirAux_sin_espacios l [] hl]
  by_cases h : l = []
  · subst h; simp
  · right; simp [h]

/-- Unfolding of `unirPalabras` at a two-or-more element list. -/
theorem unir_cons2 (w w2 : List Char) (rest : List (List Char)) :
    unirPalabras (w :: w2 :: rest) = w ++ ' ' :: unirPalabras (w2 :: rest) :=
  rfl

/-- `unirPalabras` of a nonempty word list starts with the first word's
first character. -/
theorem unir_head (w : List Char) (ws : List (List Char)) (hw : w ≠ []) :
    (unirPalabras (w :: ws)).head? = w.head? := by
  cases ws with
  | nil => rfl
  | cons w2 rest =>
    rw [unir_cons2]
    cases w with
    | nil => exact absurd rfl hw
    | cons c cs => rfl

/-- Every character of `unirPalabras ws` belongs to some word or is the
separating space. -/
theorem unir_mem : ∀ (ws : List (List Char)) (c : Char),
    c ∈ unirPalabras ws → (∃ w ∈ ws, c ∈ w) ∨ c = ' '
  | [], c, h => by simp [unirPalabras] at h
  | [w], c, h => by
    rw [unirPalabras] at h
    exact Or.inl ⟨w, List.mem_singleton_self _, h⟩
  | w :: w2 :: rest, c, h => by
    rw [unir_cons2] at h
    rcases List.mem_append.mp h with h | h
    · exact Or.inl ⟨w, List.mem_cons_self _ _, h⟩
    · rcases List.mem_cons.mp h with h | h
      · exact Or.inr h
      · rcases unir_mem (w2 :: rest) c h with ⟨w3, hw3, hc⟩ | h
        · exact Or.inl ⟨w3, List.mem_cons_of_mem _ hw3, hc⟩
        · exact Or.inr h

/-- No space in an all-letter list, as a `Chain'` fact. -/
theorem chain_sin_espacio (l : List Char)
    (h : ∀ c ∈ l, c ≠ ' ') :
    List.Chain' (fun a b => ¬(a = ' ' ∧ b = ' ')) l := by
  induction l with
  | nil => exact List.chain'_nil
  | cons a as ih =>
    cases as with
    | nil => exact List.chain'_singleton a
    | cons b bs =>
      rw [List.chain'_cons]
      exact ⟨fun hab => h a (List.mem_cons_self _ _) hab.1,
        ih fun c hc => h c (List.mem_cons_of_mem _ hc)⟩

/-- The separating spaces of `unirPalabras` are never adjacent when the
words are nonempty and space-free. -/
theorem unir_chain : ∀ ws : List (List Char),
    (∀ w ∈ ws, w ≠ [] ∧ ∀ c ∈ w, c ≠ ' ') →
    List.Chain' (fun a b => ¬(a = ' ' ∧ b = ' ')) (unirPalabras ws)
  | [], _ => List.chain'_nil
  | [w], h => by
    rw [unirPalabras]
    exact chain_sin_espacio w (h w (List.mem_singleton_self _)).2
  | w :: w2 :: rest, h => by
    rw [unir_cons2, List.chain'_append]
    refine ⟨chain_sin_espacio w (h w (List.mem_cons_self _ _)).2, ?_, ?_⟩
    · rw [List.chain'_cons']
      constructor
      · intro y hy
        have hw2 := h w2 (List.mem_cons_of_mem _ (List.mem_cons_self _ _))
        rw [unir_head w2 rest hw2.1] at hy
        intro hab
        exact hw2.2 y (List.mem_of_mem_head? hy) hab.2
      · exact unir_chain (w2 :: rest) fun u hu => h u (List.mem_cons_of_mem _ hu)
    · intro x hx y hy
      rw [List.head?_cons, Option.mem_some_iff] at hy
      intro hab
      have hwne := (h w (List.mem_cons_self _ _)).1
      exact (h w (List.mem_cons_self _ _)).2 x
        (List.mem_of_mem_getLast? hx) hab.1

/-- `unirPalabras` of nonempty words is nonempty. -/
theorem unir_ne_nil : ∀ (w : List Char) (ws : List (List Char)),
    w ≠ [] → unirPalabras (w :: ws) ≠ []
  | w, [], hw => by rw [unirPalabras]; exact hw
  | w, w2 :: rest, hw => by
    rw [unir_cons2]
    simp [hw]

/-- The last character of `unirPalabras` comes from the last word. -/
theorem unir_last : ∀ ws : List (List Char),
    (∀ w ∈ ws, w ≠ [] ∧ ∀ c ∈ w, c ≠ ' ') →
    (unirPalabras ws).getLast? ≠ some ' '
  | [], _ => by rw [unirPalabras]; simp
  | [w], h => by
    rw [unirPalabras]
    intro hl
    exact (h w (List.mem_singleton_self _)).2 ' '
      (List.mem_of_mem_getLast? hl) rfl
  | w :: w2 :: rest, h => by
    rw [unir_cons2]
    have hrec := unir_last (w2 :: rest)
      (fun u hu => h u (List.mem_cons_of_mem _ hu))
    have hne := unir_ne_nil w2 rest
      (h w2 (List.mem_cons_of_mem _ (List.mem_cons_self _ _))).1
    obtain ⟨d, ds, hds⟩ := List.exists_cons_of_ne_nil hne
    rw [hds] at hrec ⊢
    rw [List.getLast?_append, List.getLast?_cons_cons]
    cases hgl : (d :: ds).getLast? with
    | none => simp at hgl
    | some x =>
      exact fun hc => hrec (hgl.trans hc)

/-! ## Claim theorems -/

/-- Claim C9: for every input string, `normalizar` returns a string of
lowercase latin letters and single separating spaces — no two adjacent
spaces, no leading or trailing space — with the accent-bearing letters
reduced to their base letters (NFD followed by dropping combining
marks); there are no error conditions and empty input yields empty
output. -/
theorem c9_normalizar_forma (s : String) :
    (∀ c ∈ (normalizar s).data, ('a' ≤ c ∧ c ≤ 'z') ∨ c = ' ') ∧
    List.Chain' (fun a b => ¬(a = ' ' ∧ b = ' ')) (normalizar s).data ∧
    (normalizar s).data.head? ≠ some ' ' ∧
    (normalizar s).data.getLast? ≠ some ' ' ∧
    normalizar "" = "" ∧ normalizar "Veintitrés" = "veintitres" := by
  have hdata : (normalizar s).data = normalizarL s.data := rfl
  rw [hdata]
  rw [normalizarL]
  set l3 := (((recortar (s.data.map pyLower)).flatMap nfdChar).filter
    (fun c => ¬ esMarca c)).filter (fun c => esAZ c || esEspacio c) with hl3
  have h3 : ∀ c ∈ l3, esEspacio c = false → esAZ c = true := by
    intro c hc hesp
    have := (List.mem_filter.mp hc).2
    rcases Bool.or_eq_true_iff.mp this with h | h
    · exact h
    · rw [h] at hesp; cases hesp
  have H := palabrasDe_pred esAZ l3 h3
  have H2 : ∀ w ∈ palabrasDe l3, w ≠ [] ∧ ∀ c ∈ w, c ≠ ' ' := by
    intro w hw
    refine ⟨(H w hw).1, fun c hc hsp => ?_⟩
    have := ((H w hw).2 c hc).2
    rw [hsp] at this
    simp [esEspacio] at this
  refine ⟨?_, unir_chain _ H2, ?_, unir_last _ H2, by decide, by decide⟩
  · intro c hc
    rcases unir_mem _ c hc with ⟨w, hw, hcw⟩ | hc'
    · left
      have := ((H w hw).2 c hcw).1
      simpa [esAZ, Bool.and_eq_true, decide_eq_true_eq] using this
    · exact Or.inr hc'
  · cases hws : palabrasDe l3 with
    | nil => rw [unirPalabras]; simp
    | cons w rest =>
      have hw : w ≠ [] := (H2 w (hws ▸ List.mem_cons_self _ _)).1
      rw [unir_head w rest hw]
      intro hh
      exact (H2 w (hws ▸ List.mem_cons_self _ _)).2 ' '
        (List.mem_of_mem_head? hh) rfl

/-- A single-word fuzzy resolution either fails with confidence 0 or
succeeds with confidence in `[1/2, 1]`. -/
theorem fuzzyPalabra_rango (p : List Char) :
    fuzzyPalabra p = (none, 0) ∨
    ∃ v, (fuzzyPalabra p).1 = some v ∧
      1/2 ≤ (fuzzyPalabra p).2 ∧ (fuzzyPalabra p).2 ≤ 1 := by
  by_cases hp : p = []
  · left; rw [fuzzyPalabra, if_pos hp]
  cases hEM : elegirMejor (candidatosDe p) with
  | none => left; rw [fuzzyPalabra, if_neg hp, hEM]
  | some m =>
    obtain ⟨w, v, d⟩ := m
    simp only [fuzzyPalabra, if_neg hp, hEM]
    by_cases hud : max 2 (w.length * 35 / 100) < d
    · rw [if_pos hud]
      by_cases hlen : 2 ≤ p.length
      · rw [if_pos hlen]
        cases hHC : huellaCandidatos (huellaDe p) with
        | nil => exact Or.inl rfl
        | cons u us =>
          cases us with
          | nil =>
            right
            refine ⟨u.2, rfl, ?_, ?_⟩
            · show (1 : ℚ)/2 ≤ mkRat 13 20
              rw [Rat.mkRat_eq_div]; norm_num
            · show (mkRat 13 20 : ℚ) ≤ 1
              rw [Rat.mkRat_eq_div]; norm_num
          | cons u2 us2 => exact Or.inl rfl
      · rw [if_neg hlen]; exact Or.inl rfl
    · rw [if_neg hud]
      right
      set x := qSub 1 (mkRat d (max w.length 1)) with hx
      have hx1 : x ≤ 1 := by
        rw [hx, qSub_eq]
        have h0 : (0 : ℚ) ≤ mkRat d (max w.length 1) := by
          rw [Rat.mkRat_eq_div]; positivity
        linarith
      set c0 := qMax (mkRat 1 2) x with hc0
      have hmedio : mkRat (1 : Int) 2 = (1 : ℚ)/2 := by
        rw [Rat.mkRat_eq_div]; norm_num
      have hc01 : 1/2 ≤ c0 := by
        rw [hc0, qMax_eq, hmedio]; exact le_max_left _ _
      have hc02 : c0 ≤ 1 := by
        rw [hc0, qMax_eq, hmedio]; exact max_le (by norm_num) hx1
      split
      · refine ⟨v, rfl, ?_, ?_⟩
        · rw [qMin_eq, qAdd_eq]
          have h10 : mkRat (1 : Int) 10 = (1 : ℚ)/10 := by
            rw [Rat.mkRat_eq_div]; norm_num
          rw [h10]
          exact le_min (by norm_num) (by linarith)
        · rw [qMin_eq]
          exact min_le_left _ _
      · exact ⟨v, rfl, hc01, hc02⟩

/-- The multi-word fuzzy loop keeps the running minimum confidence in
`[1/2, 1]`. -/
theorem fuzzyAcum_rango :
    ∀ (ps : List (List Char)) (total : Nat) (conf : ℚ) (enc : Bool)
      (t : Nat) (c : ℚ), 1/2 ≤ conf → conf ≤ 1 →
      fuzzyAcum ps total conf enc = some (t, c) → 1/2 ≤ c ∧ c ≤ 1 := by
  intro ps
  induction ps with
  | nil =>
    intro total conf enc t c h1 h2 h
    rw [fuzzyAcum] at h
    by_cases henc : enc = true
    · rw [if_pos henc] at h
      obtain ⟨rfl, rfl⟩ : total = t ∧ conf = c := by
        have := Option.some_inj.mp h
        exact ⟨congrArg Prod.fst this, congrArg Prod.snd this⟩
      exact ⟨h1, h2⟩
    · rw [if_neg henc] at h; cases h
  | cons p ps ih =>
    intro total conf enc t c h1 h2 h
    rw [fuzzyAcum] at h
    cases hb : busca p with
    | some v =>
      rw [hb] at h
      exact ih _ _ _ _ _ h1 h2 h
    | none =>
      rw [hb] at h
      cases hfp : fuzzyPalabra p with
      | mk fv fc =>
        rw [hfp] at h
        cases fv with
        | none => cases h
        | some v =>
          rcases fuzzyPalabra_rango p with hfail | ⟨v2, hv2, hc1, hc2⟩
          · rw [hfp] at hfail; cases hfail
          · rw [hfp] at hc1 hc2
            refine ih _ _ _ _ _ ?_ ?_ h
            · rw [qMin_eq]; exact le_min h1 hc1
            · rw [qMin_eq]; exact le_trans (min_le_left _ _) h2

/-- Claim C10: `convertir_fuzzy` either fails as `(None, 0.0)` or
returns a value with confidence in `[0.50, 1.0]`; no success reports a
confidence strictly between 0 and 0.50. -/
theorem c10_confianza_en_rango (s : String) :
    convertirFuzzy s = (none, 0) ∨
    ∃ v, (convertirFuzzy s).1 = some v ∧
      1/2 ≤ (convertirFuzzy s).2 ∧ (convertirFuzzy s).2 ≤ 1 := by
  rw [convertirFuzzy]
  by_cases hn : normalizarL s.data = []
  · left; rw [convertirFuzzyL, if_pos hn]
  cases hex : convertirL s.data with
  | some v =>
    right
    refine ⟨v, ?_, ?_, ?_⟩ <;> simp only [convertirFuzzyL, if_neg hn, hex] <;>
      norm_num
  | none =>
    cases hws : palabrasDe (quitarY (normalizarL s.data)) with
    | nil => left; simp only [convertirFuzzyL, if_neg hn, hex, hws]
    | cons p rest =>
      cases rest with
      | nil =>
        have hred : convertirFuzzyL s.data = fuzzyPalabra p := by
          simp only [convertirFuzzyL, if_neg hn, hex, hws]
        rw [hred]
        exact fuzzyPalabra_rango p
      | cons p2 rest2 =>
        cases hac : fuzzyAcum (p :: p2 :: rest2) 0 1 false with
        | none =>
          left
          simp only [convertirFuzzyL, if_neg hn, hex, hws, hac]
        | some tc =>
          right
          have hred : convertirFuzzyL s.data = (some tc.1, tc.2) := by
            simp only [convertirFuzzyL, if_neg hn, hex, hws, hac]
          rw [hred]
          have := fuzzyAcum_rango (p :: p2 :: rest2) 0 1 false tc.1 tc.2
            (by norm_num) (by norm_num) (by rw [hac])
          exact ⟨tc.1, rfl, this.1, this.2⟩

/-- A lexicon word is a single `split()` word. -/
theorem busca_una_palabra {p : List Char} {v : Nat}
    (h : busca p = some v) : palabrasDe p = [p] := by
  obtain ⟨w, hw, rfl⟩ := busca_mem h
  have hforma := palabras_forma (w, v) hw
  have hsp : ∀ c ∈ w.data, esEspacio c = false := fun c hc => (hforma.2 c hc).2
  rcases palabrasDe_sin_espacios w.data hsp with hvac | hone
  · exfalso
    have hne : w.data ≠ [] := by
      intro hempty
      have := hforma.1
      rw [String.length, hempty] at this
      simp at this
    rw [palabrasDe, partirAux_sin_espacios w.data [] hsp] at hvac
    simp [hne] at hvac
  · exact hone

/-- A token list that splits into two or more words is not in the
lexicon. -/
theorem busca_multi {p : List Char} (h : 2 ≤ (palabrasDe p).length) :
    busca p = none := by
  cases hb : busca p with
  | none => rfl
  | some v =>
    exfalso
    rw [busca_una_palabra hb] at h
    simp at h

/-- Characterization of the compound summation loop: success means
every word is an exact lexicon hit (and at least one word was seen),
and the result is the running total plus the words' values. -/
theorem sumar_some : ∀ (ps : List (List Char)) (total : Nat) (enc : Bool)
    (m : Nat), sumarPalabras ps total enc = some m ↔
      ((∀ t ∈ ps, (busca t).isSome) ∧ (enc = true ∨ ps ≠ []) ∧
        m = total + (ps.map (fun t => (busca t).getD 0)).sum) := by
  intro ps
  induction ps with
  | nil =>
    intro total enc m
    rw [sumarPalabras]
    by_cases henc : enc = true
    · rw [if_pos henc]
      constructor
      · intro hh
        exact ⟨by simp, Or.inl henc, by simpa using (Option.some_inj.mp hh).symm⟩
      · rintro ⟨-, -, rfl⟩
        simp
    · rw [if_neg henc]
      constructor
      · intro hh; cases hh
      · rintro ⟨-, henc2, -⟩
        rcases henc2 with henc2 | henc2
        · exact absurd henc2 henc
        · exact absurd rfl henc2
  | cons p ps ih =>
    intro total enc m
    rw [sumarPalabras]
    cases hb : busca p with
    | none =>
      constructor
      · intro hh; cases hh
      · rintro ⟨hall, -, -⟩
        have := hall p (List.mem_cons_self _ _)
        rw [hb] at this
        cases this
    | some v =>
      rw [ih]
      constructor
      · rintro ⟨hall, -, rfl⟩
        refine ⟨?_, Or.inr (List.cons_ne_nil p ps), ?_⟩
        · intro t ht
          rcases List.mem_cons.mp ht with rfl | ht
          · rw [hb]; rfl
          · exact hall t ht
        · rw [List.map_cons, List.sum_cons, hb]
          simp only [Option.getD_some]
          omega
      · rintro ⟨hall, -, hm⟩
        refine ⟨fun t ht => hall t (List.mem_cons_of_mem _ ht), Or.inl rfl, ?_⟩
        rw [List.map_cons, List.sum_cons, hb] at hm
        simp only [Option.getD_some] at hm
        omega

/-- Claim C4, counterexample: on `"uno y"` — which normalizes to the
two words `uno y` — the claimed rule (drop the connective *token*
`y`, require the rest in the lexicon, sum) yields 1, but `convertir`
returns null: the code removes only the three-character infix
`' y '`, so a trailing connective survives and poisons the compound. -/
theorem c4_contraejemplo :
    2 ≤ (palabrasDe (normalizarL "uno y".data)).length ∧
    convertExactSpec "uno y" = some 1 ∧
    convertir "uno y" = none := by decide

/-- Claim C4, amended: for inputs normalizing to two or more words,
`convertir` removes the infix `' y '` (one left-to-right pass), splits
on spaces, and returns the sum of the lexicon values exactly when the
remaining word list is nonempty and every word is an exact lexicon
entry; otherwise null.  (A `y` token at the start or end of the text,
or the second of two consecutive connectives, is not removed, falls
outside the lexicon and makes the result null.) -/
theorem c4_compuesto_estricto (s : String)
    (hm : 2 ≤ (palabrasDe (normalizarL s.data)).length) (m : Nat) :
    convertir s = some m ↔
      (palabrasDe (quitarY (normalizarL s.data)) ≠ [] ∧
       (∀ t ∈ palabrasDe (quitarY (normalizarL s.data)), (busca t).isSome) ∧
       m = ((palabrasDe (quitarY (normalizarL s.data))).map
         (fun t => (busca t).getD 0)).sum) := by
  have hn : normalizarL s.data ≠ [] := by
    intro h
    rw [h] at hm
    simp [palabrasDe, partirAux] at hm
  have hb : busca (normalizarL s.data) = none := busca_multi hm
  simp only [convertir, convertirL, if_neg hn, hb, parsearCompuesto]
  by_cases hps : palabrasDe (quitarY (normalizarL s.data)) = []
  · rw [if_pos hps]
    simp [hps]
  · rw [if_neg hps, sumar_some]
    simp [hps]

/-- Claim C4, witness: the compound example from the spec. -/
theorem c4_compuesto_estricto_witness :
    2 ≤ (palabrasDe (normalizarL "doscientos treinta y seis".data)).length ∧
    convertir "doscientos treinta y seis" = some 236 :=
  ⟨by decide,
   (c4_compuesto_estricto "doscientos treinta y seis" (by decide) 236).mpr
     (by decide)⟩

/-- Claim C1: whenever the exact conversion of the letter text
succeeds with value `v`, arbitration returns `v` with confidence 1.0;
the method is `texto_exacto_coincide` (spec: `exact_match`) when the
digit text parses to the same `v` and `texto_exacto_prioridad` (spec:
`exact_priority`) otherwise — absent or disagreeing digit evidence
never overrides the parsed word. -/
theorem c1_prioridad_texto_exacto (letterText digitText : String)
    (v : Nat) (h : convertir letterText = some v) :
    validar_campo letterText digitText =
      ⟨some v, 1,
       if extraerDigito digitText = some v then "texto_exacto_coincide"
       else "texto_exacto_prioridad"⟩ := by
  simp only [validar_campo, h]
  by_cases hd : extraerDigito digitText = some v <;> simp [hd]

/-- Claim C1, witness: the spec's arbitration examples. -/
theorem c1_prioridad_texto_exacto_witness :
    validar_campo "quinientos cuarenta y cinco" "545" =
      ⟨some 545, 1, "texto_exacto_coincide"⟩ ∧
    validar_campo "quinientos cuarenta y cinco" "544" =
      ⟨some 545, 1, "texto_exacto_prioridad"⟩ :=
  ⟨(c1_prioridad_texto_exacto "quinientos cuarenta y cinco" "545" 545
      (by decide)).trans (by decide),
   (c1_prioridad_texto_exacto "quinientos cuarenta y cinco" "544" 545
      (by decide)).trans (by decide)⟩

/-- Claim C7: the conversion functions do *not* bound compound sums to
`[0, 999]`: both the exact tier and the fuzzy multi-token summation
happily return 1800 (the spec records this as a requirement the
reference implementation does not enforce). -/
theorem c7_suma_sin_cota :
    convertir "novecientos novecientos" = some 1800 ∧
    convertirFuzzy "novecientos novecentos" = (some 1800, mkRat 10 11) ∧
    999 < 1800 := by decide

theorem mkRat_mitad : (mkRat 1 2 : ℚ) = 1/2 := by
  rw [Rat.mkRat_eq_div]; norm_num

theorem mkRat_decimo : (mkRat 1 10 : ℚ) = 1/10 := by
  rw [Rat.mkRat_eq_div]; norm_num

theorem mkRat_trece_veintes : (mkRat 13 20 : ℚ) = 13/20 := by
  rw [Rat.mkRat_eq_div]; norm_num

/-- Unpacking membership in the fuzzy candidate set: the entry is a
lexicon word within the length-ratio window, paired with its
Levenshtein distance. -/
theorem candidatosDe_mem {p : List Char} {w : String} {v d : Nat}
    (h : (w, v, d) ∈ candidatosDe p) :
    (w, v) ∈ PALABRAS ∧ d = levenshtein p w.data ∧
      mkRat 13 20 ≤ mkRat p.length (max w.length 1) ∧
      mkRat p.length (max w.length 1) ≤ mkRat 3 2 := by
  simp only [candidatosDe, List.mem_filterMap] at h
  obtain ⟨⟨w0, v0⟩, hwv, hif⟩ := h
  by_cases hc : (mkRat p.length (max w0.length 1) < mkRat 13 20 ∨
      mkRat 3 2 < mkRat p.length (max w0.length 1))
  · rw [if_pos hc] at hif; cases hif
  · rw [if_neg hc] at hif
    have hinj := Option.some_inj.mp hif
    have h1 : w0 = w := congrArg Prod.fst hinj
    have h2 : v0 = v := congrArg (fun z => z.2.1) hinj
    have h3 : levenshtein p w0.data = d := congrArg (fun z => z.2.2) hinj
    subst h1; subst h2; subst h3
    push_neg at hc
    exact ⟨hwv, rfl, hc.1, hc.2⟩

/-- Any fuzzy candidate token has at least two characters: the ratio
window around a ≥ 3-letter lexicon word does not reach length-1
tokens. -/
theorem candidatosDe_longitud {p : List Char} {w : String} {v d : Nat}
    (h : (w, v, d) ∈ candidatosDe p) : 2 ≤ p.length := by
  obtain ⟨hmem, -, hlo, -⟩ := candidatosDe_mem h
  have hw3 : 3 ≤ w.length := (palabras_forma (w, v) hmem).1
  have hmax : max w.length 1 = w.length := max_eq_left (by omega)
  rw [hmax] at hlo
  rw [Rat.mkRat_eq_div, Rat.mkRat_eq_div] at hlo
  have hwpos : (0 : ℚ) < (w.length : ℚ) := by
    exact_mod_cast (by omega : 0 < w.length)
  push_cast at hlo
  rw [div_le_div_iff₀ (by norm_num) hwpos] at hlo
  have hnat : 13 * w.length ≤ p.length * 20 := by exact_mod_cast hlo
  omega

/-- Claim C5: when the candidate set (lexicon words within length
ratio `[0.65, 1.50]` of the token) has `(w, v, d)` as its chosen
minimum-distance entry, then:
  * `(w, v, d)` really attains the minimum Levenshtein distance;
  * if `d ≤ max(2, ⌊0.35·len(w)⌋)` the result is `v` with confidence
    `max(0.50, 1 − d/len(w))`, plus a `0.10` bonus capped at `1.0`
    when token and word share length, first and last letter;
  * if `d` exceeds the threshold, the fingerprint fallback returns the
    value of the unique lexicon entry with the token's fingerprint at
    confidence `0.65`, and `(none, 0)` when that entry is not unique
    or absent. -/
theorem c5_fuzzy_palabra (p : List Char) (w : String) (v d : Nat)
    (h : elegirMejor (candidatosDe p) = some (w, v, d)) :
    ((w, v, d) ∈ candidatosDe p ∧
      d = levenshtein p w.data ∧ ∀ x ∈ candidatosDe p, d ≤ x.2.2) ∧
    (d ≤ max 2 (w.length * 35 / 100) →
      fuzzyPalabra p = (some v,
        if p.length = w.length ∧ p.headD ' ' = w.data.headD ' ' ∧
            p.getLastD ' ' = w.data.getLastD ' ' then
          min 1 (max (1/2) (1 - (d : ℚ) / (w.length : ℚ)) + 1/10)
        else max (1/2) (1 - (d : ℚ) / (w.length : ℚ)))) ∧
    (max 2 (w.length * 35 / 100) < d →
      fuzzyPalabra p =
        (match huellaCandidatos (huellaDe p) with
         | [u] => (some u.2, (13 : ℚ)/20)
         | _ => (none, 0))) := by
  obtain ⟨hmem, hmin⟩ := elegirMejor_min h
  have hdlev := (candidatosDe_mem hmem).2.1
  have hlen2 : 2 ≤ p.length := candidatosDe_longitud hmem
  have hp : p ≠ [] := by
    intro hempty
    rw [hempty] at hlen2
    simp at hlen2
  have hw3 : 3 ≤ w.length :=
    (palabras_forma (w, v) (candidatosDe_mem hmem).1).1
  have hmax : max w.length 1 = w.length := max_eq_left (by omega)
  have hwpos : ((w.length : ℚ)) ≠ 0 := by
    exact_mod_cast (by omega : w.length ≠ 0)
  have hdiv : (mkRat d (max w.length 1) : ℚ) = (d : ℚ) / (w.length : ℚ) := by
    rw [hmax, Rat.mkRat_eq_div]
    push_cast
    rfl
  refine ⟨⟨hmem, hdlev, hmin⟩, ?_, ?_⟩
  · intro hok
    have hud : ¬ (max 2 (w.length * 35 / 100) < d) := not_lt.mpr hok
    simp only [fuzzyPalabra, if_neg hp, h, if_neg hud]
    by_cases hbonus : p.length = w.length ∧ p.headD ' ' = w.data.headD ' ' ∧
        p.getLastD ' ' = w.data.getLastD ' '
    · rw [if_pos hbonus, if_pos hbonus]
      rw [qMin_eq, qAdd_eq, qMax_eq, qSub_eq, hdiv, mkRat_mitad, mkRat_decimo]
    · rw [if_neg hbonus, if_neg hbonus]
      rw [qMax_eq, qSub_eq, hdiv, mkRat_mitad]
  · intro hud
    simp only [fuzzyPalabra, if_neg hp, h, if_pos hud, if_pos hlen2]
    cases huellaCandidatos (huellaDe p) with
    | nil => rfl
    | cons u us =>
      cases us with
      | nil => rw [mkRat_trece_veintes]
      | cons u2 us2 => rfl

/-- Claim C5, witness: `"calorce"` is matched to `catorce` (value 14)
at distance 1 with the fingerprint bonus, giving confidence
`min 1 (max (1/2) (1 − 1/7) + 1/10) = 67/70`; concretely below, the
threshold hypothesis `1 ≤ max 2 ⌊0.35·7⌋` is discharged by `decide`. -/
theorem c5_fuzzy_palabra_witness :
    elegirMejor (candidatosDe "calorce".data) = some ("catorce", 14, 1) ∧
    fuzzyPalabra "calorce".data = (some 14, mkRat 67 70) := by
  have hsel : elegirMejor (candidatosDe "calorce".data) =
      some ("catorce", 14, 1) := by decide
  refine ⟨hsel, ?_⟩
  have happ := (c5_fuzzy_palabra "calorce".data "catorce" 14 1 hsel).2.1
    (by decide)
  rw [happ, if_pos (by decide)]
  rw [Prod.mk.injEq]
  refine ⟨rfl, ?_⟩
  have hlen7 : (("catorce".length : ℕ) : ℚ) = 7 := by
    have h7 : "catorce".length = 7 := by decide
    exact_mod_cast h7
  rw [hlen7, Rat.mkRat_eq_div]
  push_cast
  rw [show (1 : ℚ) - 1/7 = 6/7 by norm_num,
    max_eq_right (by norm_num : (1 : ℚ)/2 ≤ 6/7),
    show (6 : ℚ)/7 + 1/10 = 67/70 by norm_num,
    min_eq_right (by norm_num : (67 : ℚ)/70 ≤ 1)]

theorem mkRat_tres_quintos : (mkRat 3 5 : ℚ) = 3/5 := by
  rw [Rat.mkRat_eq_div]; norm_num

/-- Claim C6, counterexample: the claim says arbitration answers
`(digitValue, 0.0, needs_escalation)` with digit evidence and
`(null, 0.0, unresolved)` without — two distinct methods.  The code
returns the *same* method `necesita_ia` (= `needs_escalation`) in both
cases; no `unresolved`-like method (`sin_resultado`) is ever returned
by `validar_campo`. -/
theorem c6_contraejemplo :
    validar_campo "zzzz" "" = ⟨none, 0, "necesita_ia"⟩ ∧
    validar_campo "zzzz" "7" = ⟨some 7, 0, "necesita_ia"⟩ := by decide

/-- Claim C6, amended: whenever the letter evidence is absent from the
lexicon (exact conversion fails) and fuzzy conversion fails or scores
below 0.60, arbitration returns method `necesita_ia` with confidence 0
and the parsed digit as value (null when there is no digit evidence);
any candidate whose letter text behaves this way is rejected by the
local pre-validation and therefore lands in the escalation batch. -/
theorem c6_necesita_ia (lt dt : String)
    (h1 : convertir lt = none)
    (h2 : (convertirFuzzy lt).1 = none ∨ (convertirFuzzy lt).2 < 3/5) :
    validar_campo lt dt = ⟨extraerDigito dt, 0, "necesita_ia"⟩ ∧
    (∀ (numTabla : Nat) (par : Par),
      (separarLetraDigito par.contenidos).1 = some lt →
      resolverLocalPar numTabla par = none) ∧
    (∀ (numTabla : Nat) (pares : List Par) (par : Par),
      par ∈ pares → resolverLocalPar numTabla par = none →
      par ∈ paraIA numTabla pares) := by
  have parte1 : ∀ dt2 : String,
      validar_campo lt dt2 = ⟨extraerDigito dt2, 0, "necesita_ia"⟩ := by
    intro dt2
    simp only [validar_campo, h1]
    cases hfz : convertirFuzzy lt with
    | mk fv fc =>
      cases fv with
      | none => rfl
      | some f =>
        rcases h2 with h2 | h2
        · rw [hfz] at h2; cases h2
        · rw [hfz] at h2
          have hnle : ¬ (mkRat 3 5 ≤ fc) := by
            rw [mkRat_tres_quintos]
            exact not_le.mpr h2
          simp [hnle]
  refine ⟨parte1 dt, ?_, ?_⟩
  · intro numTabla par hsep
    rw [resolverLocalPar]
    cases hs : separarLetraDigito par.contenidos with
    | mk ol od =>
      rw [hs] at hsep
      cases ol with
      | none => rfl
      | some l =>
        have hl : l = lt := Option.some_inj.mp hsep
        subst hl
        simp only [parte1 (od.getD "")]
        simp
  · intro numTabla pares par hmem hnone
    rw [paraIA, List.mem_filter]
    exact ⟨hmem, by rw [hnone]; rfl⟩

/-- Claim C6, witness: an unparseable letter token with a valid digit
token resolves to `(545, 0, necesita_ia)` and the candidate joins the
per-table escalation list. -/
theorem c6_necesita_ia_witness :
    validar_campo "xyzq" "545" = ⟨some 545, 0, "necesita_ia"⟩ ∧
    Par.mk "01" ["xyzq", "545"] ∈
      paraIA 1 [Par.mk "01" ["xyzq", "545"]] := by
  have h := c6_necesita_ia "xyzq" "545" (by decide) (Or.inl (by decide))
  refine ⟨h.1.trans (by decide), ?_⟩
  exact h.2.2 1 _ _ (List.mem_singleton_self _)
    (h.2.1 1 (Par.mk "01" ["xyzq", "545"]) (by decide))

/-- An input whose tables all carry empty candidate lists produces an
empty escalation batch. -/
theorem batch_vacio {tablas : List (Nat × List Par)}
    (h : tablas.all (fun tp => tp.2.isEmpty) = true) :
    batchEscalacion tablas = [] := by
  rw [batchEscalacion, List.filter_eq_nil_iff]
  intro tp' htp'
  obtain ⟨tp, htp, rfl⟩ := List.mem_map.mp htp'
  have : tp.2.isEmpty = true := by
    have := List.all_eq_true.mp h tp htp
    exact this
  have hnil : tp.2 = [] := List.isEmpty_iff.mp this
  rw [hnil]
  simp [paraIA]

/-- Claim C8: the external validator is invoked exactly once when the
escalation batch is non-empty and never when it is empty; the single
call's argument is the whole batch, collected across all tables. -/
theorem c8_una_llamada (tablas : List (Nat × List Par))
    (validador : List (Nat × List Par) → RespuestaIA) :
    (resolverDocumento tablas validador).llamadas =
      if batchEscalacion tablas = [] then []
      else [batchEscalacion tablas] := by
  rw [resolverDocumento]
  by_cases hall : tablas.all (fun tp => tp.2.isEmpty) = true
  · rw [if_pos hall, if_pos (batch_vacio hall)]
  · rw [if_neg hall]
    by_cases hbe : (batchEscalacion tablas).isEmpty = true
    · have hnil := List.isEmpty_iff.mp hbe
      rw [if_pos hbe, if_pos hnil]
    · have hne : batchEscalacion tablas ≠ [] := by
        intro hnil
        rw [hnil] at hbe
        exact hbe rfl
      rw [if_neg hbe, if_neg hne]
      dsimp only
      split <;> rfl

/-- Lookup in an external map whose per-table lists are all empty
yields the empty list. -/
theorem iaDeTabla_vacio {m : List (Nat × List Registro)}
    (hm : ∀ kv ∈ m, kv.2 = ([] : List Registro)) (t : Nat) :
    iaDeTabla m t = [] := by
  rw [iaDeTabla]
  cases hf : m.find? (fun kv => kv.1 == t) with
  | none => rfl
  | some kv =>
    have hmem := List.mem_of_find?_eq_some hf
    simp [hm kv hmem]

/-- Claim C2, counterexample: with one locally-accepted field (`00`)
and one escalated field (`01`), a failing validator
(`exito = False`, no result map) leaves the escalated field *absent*
from the output — there is no `unresolved` placeholder with null
value, contrary to the claim. -/
theorem c2_contraejemplo :
    resolverDocumento
      [(1, [Par.mk "00" ["quinientos cuarenta y cinco", "545"],
            Par.mk "01" ["xyzq", "7"]])]
      (fun _ => ⟨false, none⟩) =
    ⟨some [(1, [Registro.mk "00" 1 (some 545) "alta"])],
     [[(1, [Par.mk "01" ["xyzq", "7"]])]]⟩ ∧
    ∀ r ∈ [Registro.mk "00" 1 (some 545) "alta"], r.id ≠ "01" := by
  decide

/-- Claim C2, amended: if the single escalation call reports failure,
the pipeline still returns every locally-accepted result unchanged, in
the original per-table candidate order, provided at least one field
was locally accepted; the escalated fields are omitted from the output
(no `unresolved`/null placeholder is emitted for them).  If nothing
was locally accepted the whole document fails (no result set). -/
theorem c2_fallo_parcial (tablas : List (Nat × List Par))
    (validador : List (Nat × List Par) → RespuestaIA)
    (hb : batchEscalacion tablas ≠ [])
    (hresp : validador (batchEscalacion tablas) = ⟨false, none⟩) :
    (¬ tablas.all (fun tp => (localesDe tp.1 tp.2).isEmpty) = true →
      (resolverDocumento tablas validador).resultados =
        some (tablas.map (fun tp => (tp.1,
          fusionarTabla (localesDe tp.1 tp.2) []
            (tp.2.map (fun par => par.id)))))) ∧
    (tablas.all (fun tp => (localesDe tp.1 tp.2).isEmpty) = true →
      (resolverDocumento tablas validador).resultados = none) := by
  have hall : ¬ tablas.all (fun tp => tp.2.isEmpty) = true := by
    intro hall
    exact hb (batch_vacio hall)
  have hbe : ¬ (batchEscalacion tablas).isEmpty = true := by
    intro hbe
    exact hb (List.isEmpty_iff.mp hbe)
  rw [resolverDocumento, if_neg hall, if_neg hbe, hresp]
  constructor
  · intro hloc
    rw [if_neg (fun hcond => hloc hcond.2)]
    show some (fusionarTodo tablas
      (tablas.map (fun tp => (tp.1, ([] : List Registro))))) = _
    refine congrArg some ?_
    rw [fusionarTodo]
    refine List.map_congr_left ?_
    intro tp htp
    have hia : iaDeTabla (tablas.map (fun tp => (tp.1, ([] : List Registro))))
        tp.1 = [] := by
      refine iaDeTabla_vacio ?_ tp.1
      intro kv hkv
      obtain ⟨tq, -, rfl⟩ := List.mem_map.mp hkv
      rfl
    rw [hia]
    rfl
  · intro hloc
    rw [if_pos ⟨rfl, hloc⟩]

/-- Claim C2, witness: the two-field document from the counterexample,
through the amended statement. -/
theorem c2_fallo_parcial_witness :
    (resolverDocumento
      [(1, [Par.mk "00" ["quinientos cuarenta y cinco", "545"],
            Par.mk "01" ["xyzq", "7"]])]
      (fun _ => ⟨false, none⟩)).resultados =
    some [(1, [Registro.mk "00" 1 (some 545) "alta"])] :=
  ((c2_fallo_parcial
      [(1, [Par.mk "00" ["quinientos cuarenta y cinco", "545"],
            Par.mk "01" ["xyzq", "7"]])]
      (fun _ => ⟨false, none⟩) (by decide) rfl).1 (by decide)).trans
    (by decide)

/-- Every record the per-table merge emits carries a non-null value. -/
theorem fusionarTabla_valor {localesD iaD : List (String × Registro)}
    {idsOrden : List String} :
    ∀ r ∈ fusionarTabla localesD iaD idsOrden, r.valor ≠ none := by
  intro r hr
  rw [fusionarTabla] at hr
  rcases List.mem_append.mp hr with hr | hr
  · obtain ⟨a, -, heq⟩ := List.mem_filterMap.mp hr
    cases ho : (buscarReg localesD a).orElse (fun _ => buscarReg iaD a) with
    | none => rw [ho] at heq; cases heq
    | some r2 =>
      rw [ho] at heq
      have heq2 : (if r2.valor.isSome = true then some r2 else none) =
          some r := heq
      by_cases hv : r2.valor.isSome = true
      · rw [if_pos hv] at heq2
        rw [← Option.some_inj.mp heq2]
        exact Option.isSome_iff_ne_none.mp hv
      · rw [if_neg hv] at heq2; cases heq2
  · obtain ⟨a, -, heq⟩ := List.mem_filterMap.mp hr
    by_cases hin : idsOrden.contains a.1 = true
    · rw [if_pos hin] at heq; cases heq
    · rw [if_neg hin] at heq
      by_cases hv : a.2.valor.isSome = true
      · rw [if_pos hv] at heq
        rw [← Option.some_inj.mp heq]
        exact Option.isSome_iff_ne_none.mp hv
      · rw [if_neg hv] at heq; cases heq

/-- Structure of a merged result set: one entry per input table, same
table ids in the same order, and only non-null values. -/
theorem fusionarTodo_forma (tablas : List (Nat × List Par))
    (iaMapa : List (Nat × List Registro)) :
    (fusionarTodo tablas iaMapa).map (fun tr => tr.1) =
      tablas.map (fun tp => tp.1) ∧
    ∀ tr ∈ fusionarTodo tablas iaMapa, ∀ r ∈ tr.2, r.valor ≠ none := by
  constructor
  · rw [fusionarTodo, List.map_map]
    rfl
  · intro tr htr r hrr
    obtain ⟨tp, -, rfl⟩ := List.mem_map.mp htr
    exact fusionarTabla_valor r hrr

/-- Claim C3, counterexample: a single candidate resolved by neither
source (the validator succeeds but answers nothing for it) yields an
*empty* result list — not "exactly one ResolutionResult per
RawFieldCandidate" and no `unresolved` record with null value. -/
theorem c3_contraejemplo :
    resolverDocumento [(1, [Par.mk "01" ["xyzq", "7"]])]
      (fun _ => ⟨true, some [(1, [])]⟩) =
    ⟨some [(1, [])], [[(1, [Par.mk "01" ["xyzq", "7"]])]]⟩ := by decide

/-- Claim C3, amended: whenever the pipeline produces a result set, it
is the step-3 merge of the local and external results — one entry per
table, in the input's table order, locally-accepted results taking
precedence over external results for the same id in original candidate
order, with external-only ids appended — and every emitted record has
a non-null value: candidates resolved by neither source (and external
answers with null value) are omitted, not emitted as `unresolved`
placeholders. -/
theorem c3_fusion_forma (tablas : List (Nat × List Par))
    (validador : List (Nat × List Par) → RespuestaIA)
    (lista : List (Nat × List Registro))
    (h : (resolverDocumento tablas validador).resultados = some lista) :
    (∃ iaMapa, lista = fusionarTodo tablas iaMapa) ∧
    lista.map (fun tr => tr.1) = tablas.map (fun tp => tp.1) ∧
    ∀ tr ∈ lista, ∀ r ∈ tr.2, r.valor ≠ none := by
  have hforma : ∃ iaMapa, lista = fusionarTodo tablas iaMapa := by
    rw [resolverDocumento] at h
    by_cases hall : tablas.all (fun tp => tp.2.isEmpty) = true
    · rw [if_pos hall] at h; cases h
    · rw [if_neg hall] at h
      by_cases hbe : (batchEscalacion tablas).isEmpty = true
      · rw [if_pos hbe] at h
        exact ⟨[], (Option.some_inj.mp h).symm⟩
      · rw [if_neg hbe] at h
        by_cases hcond : (validador (batchEscalacion tablas)).exito = false ∧
            tablas.all (fun tp => (localesDe tp.1 tp.2).isEmpty) = true
        · rw [if_pos hcond] at h; cases h
        · rw [if_neg hcond] at h
          exact ⟨_, (Option.some_inj.mp h).symm⟩
  obtain ⟨iaMapa, rfl⟩ := hforma
  have hprops := fusionarTodo_forma tablas iaMapa
  exact ⟨⟨iaMapa, rfl⟩, hprops.1, hprops.2⟩

/-- Claim C3, witness: a fully-locally-resolved one-field document. -/
theorem c3_fusion_forma_witness :
    ((resolverDocumento
        [(1, [Par.mk "00" ["quinientos cuarenta y cinco", "545"]])]
        (fun _ => ⟨true, none⟩)).resultados =
      some [(1, [Registro.mk "00" 1 (some 545) "alta"])]) ∧
    ([(1, [Registro.mk "00" 1 (some 545) "alta"])].map (fun tr => tr.1) =
      [(1, [Par.mk "00" ["quinientos cuarenta y cinco", "545"]])].map
        (fun tp => tp.1) ∧
    ∀ tr ∈ [(1, [Registro.mk "00" 1 (some 545) "alta"])],
      ∀ r ∈ tr.2, r.valor ≠ none) :=
  ⟨by decide,
   (c3_fusion_forma
     [(1, [Par.mk "00" ["quinientos cuarenta y cinco", "545"]])]
     (fun _ => ⟨true, none⟩)
     [(1, [Registro.mk "00" 1 (some 545) "alta"])] (by decide)).2⟩

end Lector


